import Mathlib

attribute [local semireducible] Rat.add Rat.mul Rat.inv Rat.sub Rat.ofScientific

open scoped List

/-!
Verification of the code-search core of `dspy_code.rag.search` (`CodeSearch`).

The Python module is shallowly embedded: Python floats become `ℚ` (every score
arising in the module is a sum/product of small decimal literals, exact in `ℚ`),
Python's stable `list.sort(key=..., reverse=True)` becomes `List.insertionSort`
with a "greater-or-equal score" relation (stable, structurally recursive), and
Python dicts (the combiner's dedup dict and the query cache) become
insertion-ordered association lists.  The external TF-IDF backend
(scikit-learn's vectorizer and `cosine_similarity`) is kept abstract as an
oracle `sims : String → List ℚ` giving the similarity of a query against each
document vector; `np.argsort` is modelled as a stable ascending argsort.
-/

namespace DspyRag

/-- Modelled from the spec: the `CodeElement` record of `dspy_code.rag.models`
(the models module is not among the sources); exactly the six fields used by
`search.py`.  `docstring` is optional; absent is a valid state. -/
structure CodeElement where
  name : String
  type : String
  codebase : String
  signature : String
  docstring : Option String
  code : String
deriving DecidableEq

instance : Inhabited CodeElement := ⟨⟨"", "", "", "", none, ""⟩⟩

/-- Modelled from the spec: the `SearchResult` record of `dspy_code.rag.models`;
one ranked hit with provenance tag and the query terms recorded for the match. -/
structure SearchResult where
  element : CodeElement
  score : ℚ
  match_type : String
  matched_terms : List String
deriving DecidableEq

/-- Python truthiness of the optional docstring field: `if elem.docstring:` is
false both for `None` and for the empty string. -/
def docstringIf (elem : CodeElement) : Option String :=
  match elem.docstring with
  | some d => if d == "" then none else some d
  | none => none

/-- Whether `p` occurs at the start of `l`. -/
def matchesAt : (p l : List Char) → Bool
  | [], _ => true
  | _ :: _, [] => false
  | a :: p, b :: l => a == b && matchesAt p l

/-- Whether the pattern `p` occurs contiguously somewhere inside `l`. -/
def containsSeq : (l p : List Char) → Bool
  | [], p => matchesAt p []
  | a :: t, p => matchesAt p (a :: t) || containsSeq t p

/-- Python's substring test `pat in s` on strings. -/
def occursIn (pat s : String) : Bool :=
  containsSeq s.toList pat.toList

/-- Python's `str.lower()` (ASCII case folding, as in `Char.toLower`). -/
def lowerStr (s : String) : String :=
  String.mk (s.toList.map Char.toLower)

/-- A word character of the regex `\w` (ASCII range). -/
def isWordChar (c : Char) : Bool := c.isAlphanum || c == '_'

/-- Splits a character list at the characters failing `p`, keeping (possibly
empty) segments; the nonempty segments are the maximal runs of characters
satisfying `p`, as matched by `re.findall` with a one-class `+` pattern. -/
def splitRuns (p : Char → Bool) : List Char → List (List Char)
  | [] => [[]]
  | a :: t =>
    match splitRuns p t with
    | [] => [[]]
    | h :: r => if p a then (a :: h) :: r else [] :: h :: r

/-- The stop-word set of `CodeSearch._extract_keywords`. -/
def stopWords : List String :=
  ["the", "a", "an", "and", "or", "but", "in", "on", "at", "to", "for", "of",
   "with", "by", "from", "as", "is", "was", "are", "were", "be", "how", "do",
   "does", "i", "you", "use", "using", "create", "make"]

/-- Keyword extraction of `CodeSearch._extract_keywords`: lowercase the query,
take the maximal word-character runs (`re.findall(r"\w+", ...)`), and drop
stop words and words of length at most 2. -/
def extractKeywords (query : String) : List String :=
  let words :=
    ((splitRuns isWordChar (lowerStr query).toList).filter (fun w => !w.isEmpty)).map String.mk
  words.filter fun w => !(stopWords.contains w) && decide (w.length > 2)

/-- Terms of the query that occur in `text`, as in
`CodeSearch._extract_matched_terms`. -/
def extractMatchedTerms (query text : String) : List String :=
  (extractKeywords query).filter fun kw => occursIn kw (lowerStr text)

/-- Field-weighted keyword scoring of `CodeSearch._score_element_keywords`:
four sequential passes over the keyword list, adding 3.0 per keyword found in
the lowercased name, 2.0 in the docstring (when truthy), 1.5 in the signature
and 0.5 in the code. -/
def scoreElementKeywords (elem : CodeElement) (keywords : List String) : ℚ :=
  let s1 := keywords.foldl
    (fun s kw => if occursIn kw (lowerStr elem.name) then s + 3 else s) 0
  let s2 :=
    match docstringIf elem with
    | some d => keywords.foldl
        (fun s kw => if occursIn kw (lowerStr d) then s + 2 else s) s1
    | none => s1
  let s3 := keywords.foldl
    (fun s kw => if occursIn kw (lowerStr elem.signature) then s + 1.5 else s) s2
  keywords.foldl
    (fun s kw => if occursIn kw (lowerStr elem.code) then s + 0.5 else s) s3

/-- The total weight a single keyword contributes to an element's score, one
term per field. -/
def keywordFieldScore (elem : CodeElement) (kw : String) : ℚ :=
  (if occursIn kw (lowerStr elem.name) then 3 else 0) +
  (match docstringIf elem with
   | some d => if occursIn kw (lowerStr d) then 2 else 0
   | none => 0) +
  (if occursIn kw (lowerStr elem.signature) then 1.5 else 0) +
  (if occursIn kw (lowerStr elem.code) then 0.5 else 0)

/-- Descending-score order on results: `a` may stay before `b`.  Sorting with
this relation via the stable `insertionSort` models Python's stable
`results.sort(key=lambda x: x.score, reverse=True)`. -/
def scoreGE (a b : SearchResult) : Prop := b.score ≤ a.score

instance : DecidableRel scoreGE := fun a b => inferInstanceAs (Decidable (b.score ≤ a.score))

instance : IsTotal SearchResult scoreGE := ⟨fun a b => le_total b.score a.score⟩

instance : IsTrans SearchResult scoreGE := ⟨fun _ _ _ h1 h2 => le_trans h2 h1⟩

/-- Descending order on scored `(element, score)` pairs, modelling
`scored_elements.sort(key=lambda x: x[1], reverse=True)`. -/
def pairGE (a b : CodeElement × ℚ) : Prop := b.2 ≤ a.2

instance : DecidableRel pairGE := fun a b => inferInstanceAs (Decidable (b.2 ≤ a.2))

instance : IsTotal (CodeElement × ℚ) pairGE := ⟨fun a b => le_total b.2 a.2⟩

instance : IsTrans (CodeElement × ℚ) pairGE := ⟨fun _ _ _ h1 h2 => le_trans h2 h1⟩

/-- Ascending order on document indices by similarity value, the order used by
`np.argsort(similarities)`. -/
def simsLE (v : List ℚ) (i j : Nat) : Prop := v.getD i 0 ≤ v.getD j 0

instance (v : List ℚ) : DecidableRel (simsLE v) :=
  fun i j => inferInstanceAs (Decidable (v.getD i 0 ≤ v.getD j 0))

instance (v : List ℚ) : IsTotal Nat (simsLE v) := ⟨fun i j => le_total (v.getD i 0) (v.getD j 0)⟩

instance (v : List ℚ) : IsTrans Nat (simsLE v) := ⟨fun _ _ _ h1 h2 => le_trans h1 h2⟩

/-- The state of one `CodeSearch` instance.  `sims` is the oracle for the
external TF-IDF backend: `sims q` is `cosine_similarity(vectorizer.transform([q]),
tfidf_matrix)[0]`, the similarity of the query against every document vector
(deterministic, so a plain function of the query); it lives in scikit-learn,
outside this repository.  `use_tfidf` records whether the backend is available
(`self.use_tfidf and self.vectorizer is not None`). -/
structure CodeSearch where
  elements : List CodeElement
  use_tfidf : Bool
  sims : String → List ℚ
  query_cache : List (String × List SearchResult)

/-- Splits a character list at every occurrence of `c` (Python `s.split(sep)`
for a one-character separator: empty segments are kept). -/
def splitOnChar (c : Char) : List Char → List (List Char)
  | [] => [[]]
  | a :: t =>
    match splitOnChar c t with
    | [] => [[]]
    | h :: r => if a == c then [] :: h :: r else (a :: h) :: r

/-- Space-joins a list of character lists (Python `" ".join(parts)`). -/
def joinSpaces : List (List Char) → List Char
  | [] => []
  | [x] => x
  | x :: xs => x ++ ' ' :: joinSpaces xs

/-- The synthesized document text per element built by `_build_tfidf_index`:
name, docstring when truthy, signature, then the first 5 lines of code, all
space-joined. -/
def elementText (elem : CodeElement) : String :=
  let parts := [elem.name.toList]
    ++ (match docstringIf elem with | some d => [d.toList] | none => [])
    ++ [elem.signature.toList]
    ++ (splitOnChar '\n' elem.code.toList).take 5
  String.mk (joinSpaces parts)

/-- The synthesized document texts, aligned with `elements` by position
(`self.element_texts`). -/
def elementTexts (cs : CodeSearch) : List String := cs.elements.map elementText

/-- The in-order list of elements with a positive keyword score, paired with
their scores (`scored_elements` in `keyword_search`, minus the constant
`keywords` component). -/
def keywordScored (cs : CodeSearch) (keywords : List String) : List (CodeElement × ℚ) :=
  cs.elements.filterMap fun elem =>
    let score := scoreElementKeywords elem keywords
    if 0 < score then some (elem, score) else none

/-- Instrumented `CodeSearch.keyword_search`: the second component counts how
many elements were scored (`0` exactly when the extracted keyword list is empty
and the early return fires). -/
def keywordSearchI (cs : CodeSearch) (query : String) (top_k : Nat) :
    List SearchResult × Nat :=
  let keywords := extractKeywords query
  if keywords.isEmpty then ([], 0)
  else
    let sorted := (keywordScored cs keywords).insertionSort pairGE
    (((sorted.take top_k).map fun p =>
        { element := p.1, score := p.2, match_type := "keyword", matched_terms := keywords }),
     cs.elements.length)

/-- `CodeSearch.keyword_search`. -/
def keywordSearch (cs : CodeSearch) (query : String) (top_k : Nat) : List SearchResult :=
  (keywordSearchI cs query top_k).1

/-- Stable ascending argsort of a similarity vector, modelling
`np.argsort(similarities)` (ties keep ascending index order). -/
def argsortAsc (v : List ℚ) : List Nat :=
  (List.range v.length).insertionSort (simsLE v)

/-- Models `np.argsort(similarities)[::-1]`. -/
def argsortDesc (v : List ℚ) : List Nat := (argsortAsc v).reverse

/-- The `SearchResult` that `semantic_search` builds for document index `i`. -/
def mkSemanticResult (cs : CodeSearch) (query : String) (i : Nat) : SearchResult :=
  { element := cs.elements.getD i default
    score := (cs.sims query).getD i 0
    match_type := "semantic"
    matched_terms := extractMatchedTerms query ((elementTexts cs).getD i "") }

/-- `CodeSearch.semantic_search`: with the backend available, walk the reversed
argsort of the similarities, keep the first `top_k` indices, and include the
strictly positive ones; otherwise fall back to keyword search. -/
def semanticSearch (cs : CodeSearch) (query : String) (top_k : Nat) : List SearchResult :=
  if cs.use_tfidf then
    let v := cs.sims query
    ((argsortDesc v).take top_k).filterMap fun i =>
      if 0 < v.getD i 0 then some (mkSemanticResult cs query i) else none
  else keywordSearch cs query top_k

/-- The document indices `semantic_search` keeps: the first `top_k` of the
reversed argsort, restricted to strictly positive similarity. -/
def semanticSel (cs : CodeSearch) (query : String) (top_k : Nat) : List Nat :=
  ((argsortDesc (cs.sims query)).take top_k).filter fun i =>
    decide (0 < (cs.sims query).getD i 0)

/-- The dedup identity key `f"{codebase}:{name}"` of `_combine_results`. -/
def resKey (r : SearchResult) : String :=
  r.element.codebase ++ ":" ++ r.element.name

/-- Lookup in an insertion-ordered association list (Python dict read). -/
def alistFind {α : Type} (d : List (String × α)) (k : String) : Option α :=
  (d.find? fun p => p.1 == k).map fun p => p.2

/-- Write to an insertion-ordered association list: updating an existing key
keeps its position, a new key is appended (Python dict assignment). -/
def alistSet {α : Type} (d : List (String × α)) (k : String) (v : α) : List (String × α) :=
  match alistFind d k with
  | some _ => d.map fun p => if p.1 == k then (k, v) else p
  | none => d ++ [(k, v)]

/-- The in-place merge of `_combine_results` when a keyword result hits an
already-present identity key.  Python's `list(set(a + b))` has unspecified
order; it is modelled by `(a ++ b).dedup`, one duplicate-free representative
of the union. -/
def mergeHybrid (existing r : SearchResult) : SearchResult :=
  { existing with
      score := (existing.score + r.score) / 2 * 1.5
      match_type := "hybrid"
      matched_terms := (existing.matched_terms ++ r.matched_terms).dedup }

/-- One step of the keyword pass of `_combine_results`. -/
def addKeywordResult (d : List (String × SearchResult)) (r : SearchResult) :
    List (String × SearchResult) :=
  match alistFind d (resKey r) with
  | some existing => alistSet d (resKey r) (mergeHybrid existing r)
  | none => d ++ [(resKey r, r)]

/-- The combined dict of `_combine_results`: seed with the semantic results,
then fold the keyword results in. -/
def combineDict (semantic keyword : List SearchResult) : List (String × SearchResult) :=
  keyword.foldl addKeywordResult (semantic.foldl (fun d r => alistSet d (resKey r) r) [])

/-- `CodeSearch._combine_results` (`.values()` of the combined dict). -/
def combineResults (semantic keyword : List SearchResult) : List SearchResult :=
  (combineDict semantic keyword).map fun p => p.2

/-- The accumulated multiplicative boost `rank_results` applies to one element:
×2.0 for an exact (case-insensitive) name match, else ×1.5 for a name-substring
match; ×1.3 for a docstring-substring match (docstring truthy); ×1.2 for
classes and functions; ×1.1 for the preferred codebases. -/
def rankBoost (query : String) (elem : CodeElement) : ℚ :=
  let ql := lowerStr query
  let b1 : ℚ :=
    if ql == lowerStr elem.name then 2
    else if occursIn ql (lowerStr elem.name) then 1.5 else 1
  let b2 : ℚ :=
    match docstringIf elem with
    | some d => if occursIn ql (lowerStr d) then 1.3 else 1
    | none => 1
  let b3 : ℚ := if elem.type == "class" || elem.type == "function" then 1.2 else 1
  let b4 : ℚ := if elem.codebase == "dspy" || elem.codebase == "dspy_cli" then 1.1 else 1
  b1 * b2 * b3 * b4

/-- `CodeSearch.rank_results`: multiply every score by its boost, then stable
descending sort by final score. -/
def rankResults (results : List SearchResult) (query : String) : List SearchResult :=
  (results.map fun r =>
    { r with score := r.score * rankBoost query r.element }).insertionSort scoreGE

/-- The cache key `f"hybrid:{query}:{top_k}"`. -/
def cacheKey (query : String) (top_k : Nat) : String :=
  "hybrid:" ++ query ++ ":" ++ toString top_k

/-- Instrumented `CodeSearch.hybrid_search`: returns the results, the updated
query cache, and how many scorer/re-ranker invocations were performed (semantic
scorer, keyword scorer and re-ranker count one each; a cache hit performs
none). -/
def hybridSearchI (cs : CodeSearch) (query : String) (top_k : Nat) :
    List SearchResult × List (String × List SearchResult) × Nat :=
  match alistFind cs.query_cache (cacheKey query top_k) with
  | some cached => (cached, cs.query_cache, 0)
  | none =>
    if cs.use_tfidf then
      let semantic := semanticSearch cs query (top_k * 2)
      let keyword := keywordSearch cs query (top_k * 2)
      let results := (rankResults (combineResults semantic keyword) query).take top_k
      (results, alistSet cs.query_cache (cacheKey query top_k) results, 3)
    else
      let results := keywordSearch cs query top_k
      (results, alistSet cs.query_cache (cacheKey query top_k) results, 1)

/-- `CodeSearch.hybrid_search` (result component). -/
def hybridSearch (cs : CodeSearch) (query : String) (top_k : Nat) : List SearchResult :=
  (hybridSearchI cs query top_k).1

/-- The result `search_by_name` builds in exact mode. -/
def mkExactResult (name : String) (elem : CodeElement) : SearchResult :=
  { element := elem, score := 1, match_type := "exact", matched_terms := [name] }

/-- The result `search_by_name` builds in substring mode: score
`len(name) / len(elem.name)`. -/
def mkNameResult (name : String) (elem : CodeElement) : SearchResult :=
  { element := elem, score := (name.length : ℚ) / (elem.name.length : ℚ),
    match_type := "name", matched_terms := [name] }

/-- `CodeSearch.search_by_name`: case-insensitive, exact or substring mode,
sorted descending by score. -/
def searchByName (cs : CodeSearch) (name : String) (isExact : Bool) : List SearchResult :=
  let nl := lowerStr name
  let results := cs.elements.filterMap fun elem =>
    let enl := lowerStr elem.name
    if isExact then
      if enl == nl then some (mkExactResult name elem) else none
    else if occursIn nl enl then some (mkNameResult name elem)
    else none
  results.insertionSort scoreGE

/-! Concrete sample data used by witnesses and counterexamples. -/

/-- A sample element whose name is `config` and whose other text fields are
empty. -/
def eConfig : CodeElement := ⟨"config", "function", "core", "", none, ""⟩

/-- A sample element not matching the query `foo` at all. -/
def elemBar : CodeElement := ⟨"bar", "method", "other", "", none, ""⟩

/-- A sample element whose name contains `foo` as a substring. -/
def elemFoobar : CodeElement := ⟨"foobar", "method", "other", "", none, ""⟩

/-- A sample element with a plain name, used where equal boosts are needed. -/
def elemBaz : CodeElement := ⟨"baz", "method", "other", "", none, ""⟩

/-- A keyword result for `elemBar` with score 3. -/
def resBar : SearchResult := ⟨elemBar, 3, "keyword", []⟩

/-- A keyword result for `elemFoobar` with score 1.9. -/
def resFoobar : SearchResult := ⟨elemFoobar, 19/10, "keyword", []⟩

/-- A keyword result for `elemBaz` with score 2. -/
def resBaz : SearchResult := ⟨elemBaz, 2, "keyword", []⟩

/-- A semantic result with score 0.4. -/
def sem04 : SearchResult := ⟨eConfig, 2/5, "semantic", ["alpha"]⟩

/-- A keyword result with score 0.6 for the same element as `sem04`. -/
def kw06 : SearchResult := ⟨eConfig, 3/5, "keyword", ["beta"]⟩

/-- A `CodeSearch` whose TF-IDF backend reports equal positive similarity for
its two documents (e.g. two elements with identical synthesized text). -/
def csTie : CodeSearch :=
  { elements := [⟨"a", "function", "core", "", none, ""⟩, ⟨"b", "function", "core", "", none, ""⟩]
    use_tfidf := true
    sims := fun _ => [1/2, 1/2]
    query_cache := [] }

/-- A `CodeSearch` with distinct positive similarities, for witnesses. -/
def csSem : CodeSearch :=
  { elements := [⟨"a", "function", "core", "", none, ""⟩, ⟨"b", "function", "core", "", none, ""⟩]
    use_tfidf := true
    sims := fun _ => [1/2, 3/4]
    query_cache := [] }

/-- A `CodeSearch` without the vector backend, indexing only `eConfig`. -/
def csKw : CodeSearch :=
  { elements := [eConfig], use_tfidf := false, sims := fun _ => [], query_cache := [] }

/-! Association-list helper lemmas. -/

/-- After mapping the in-place update over a list in which the key occurs, the
first hit at that key is the updated pair. -/
theorem find?_set_map {α : Type} (k : String) (v : α) :
    ∀ d : List (String × α), (d.find? fun q => q.1 == k).isSome = true →
      ((d.map fun q => if q.1 == k then (k, v) else q).find? fun q => q.1 == k) = some (k, v) := by
  intro d
  induction d with
  | nil => simp
  | cons a t ih =>
    intro hs
    by_cases ha : (a.1 == k) = true
    · have he : (if (a.1 == k) = true then (k, v) else a) = (k, v) := if_pos ha
      rw [List.map_cons, he]
      simp [List.find?]
    · have hf : (a.1 == k) = false := Bool.not_eq_true _ |>.mp ha
      have he : (if (a.1 == k) = true then (k, v) else a) = a := if_neg ha
      rw [List.map_cons, he]
      simp only [List.find?, hf] at hs ⊢
      exact ih hs

/-- Writing a key into an association list makes it readable back. -/
theorem alistFind_alistSet_self {α : Type} (d : List (String × α)) (k : String) (v : α) :
    alistFind (alistSet d k v) k = some v := by
  unfold alistSet
  cases h : alistFind d k with
  | none =>
    unfold alistFind at h ⊢
    cases hf : d.find? (fun p => p.1 == k) with
    | some p => rw [hf] at h; simp at h
    | none => simp [List.find?_append, hf]
  | some e =>
    unfold alistFind at h ⊢
    cases hf : d.find? (fun p => p.1 == k) with
    | none => rw [hf] at h; simp at h
    | some p =>
      rw [find?_set_map k v d (by simp [hf])]
      rfl

/-! Claim theorems. -/

/-- Claim C1: whenever a keyword result's identity key is already present in
the combined dict (in particular when it was seeded by a semantic result), the
merged entry keeps the existing element and gets score
`(existing.score + new.score) / 2 * 1.5`, match type `"hybrid"`, and a
duplicate-free union of both term sets as `matched_terms`; concretely, a
semantic score of 0.4 and a keyword score of 0.6 merge to exactly 0.75. -/
theorem claim1_combiner_merge :
    (∀ (d : List (String × SearchResult)) (r e : SearchResult),
        alistFind d (resKey r) = some e →
        alistFind (addKeywordResult d r) (resKey r) = some (mergeHybrid e r))
    ∧ (∀ e r : SearchResult,
        (mergeHybrid e r).element = e.element
        ∧ (mergeHybrid e r).score = (e.score + r.score) / 2 * 1.5
        ∧ (mergeHybrid e r).match_type = "hybrid"
        ∧ (mergeHybrid e r).matched_terms.Nodup
        ∧ ∀ t, t ∈ (mergeHybrid e r).matched_terms ↔
            (t ∈ e.matched_terms ∨ t ∈ r.matched_terms))
    ∧ combineResults [sem04] [kw06] = [⟨eConfig, 3/4, "hybrid", ["alpha", "beta"]⟩] := by
  refine ⟨?_, ?_, by decide⟩
  · intro d r e h
    simp only [addKeywordResult, h]
    exact alistFind_alistSet_self d (resKey r) (mergeHybrid e r)
  · intro e r
    refine ⟨rfl, rfl, rfl, List.nodup_dedup _, ?_⟩
    intro t
    simp [mergeHybrid, List.mem_dedup]

/-- Witness for C1: the merge rule applied at a concrete dict seeded with the
0.4-scored semantic result and hit by the 0.6-scored keyword result. -/
theorem claim1_witness :
    alistFind (addKeywordResult [(resKey kw06, sem04)] kw06) (resKey kw06)
        = some (mergeHybrid sem04 kw06)
    ∧ ("beta" ∈ (mergeHybrid sem04 kw06).matched_terms ↔
        ("beta" ∈ sem04.matched_terms ∨ "beta" ∈ kw06.matched_terms)) :=
  ⟨claim1_combiner_merge.1 [(resKey kw06, sem04)] kw06 sem04 (by decide),
   (claim1_combiner_merge.2.1 sem04 kw06).2.2.2.2 "beta"⟩

/-- Claim C7: with the vector backend unavailable and no cache entry for the
key, `hybrid_search` returns exactly what `keyword_search` returns at the same
query and `top_k`. -/
theorem claim7_keyword_fallback (cs : CodeSearch) (query : String) (top_k : Nat)
    (h1 : cs.use_tfidf = false)
    (h2 : alistFind cs.query_cache (cacheKey query top_k) = none) :
    hybridSearch cs query top_k = keywordSearch cs query top_k := by
  unfold hybridSearch hybridSearchI
  simp [h1, h2]

/-- Witness for C7 at a concrete backend-less searcher with an empty cache. -/
theorem claim7_witness :
    hybridSearch csKw "config" 5 = keywordSearch csKw "config" 5 :=
  claim7_keyword_fallback csKw "config" 5 rfl rfl

/-- Claim C10: a query whose extracted keyword list is empty (every token is a
stop word or too short) makes `keyword_search` return the empty list for every
index and `top_k`, scoring zero elements (the instrumentation count is 0). -/
theorem claim10_no_keywords (cs : CodeSearch) (query : String) (top_k : Nat)
    (h : extractKeywords query = []) :
    keywordSearchI cs query top_k = ([], 0) := by
  unfold keywordSearchI
  simp [h]

/-- Witness for C10 on a query made of stop words and short tokens only. -/
theorem claim10_witness :
    extractKeywords "how to use it" = [] ∧ keywordSearchI csKw "how to use it" 9 = ([], 0) :=
  ⟨by decide, claim10_no_keywords csKw "how to use it" 9 (by decide)⟩

/-- Claim C6: a second `hybrid_search` call on the state left by the first call
with the identical `(query, top_k)` pair returns the cached sequence — the very
result of the first call — with the cache unchanged and zero invocations of the
semantic scorer, keyword scorer or re-ranker. -/
theorem claim6_cache_hit (cs : CodeSearch) (query : String) (top_k : Nat) :
    hybridSearchI { cs with query_cache := (hybridSearchI cs query top_k).2.1 } query top_k
      = ((hybridSearchI cs query top_k).1, (hybridSearchI cs query top_k).2.1, 0) := by
  unfold hybridSearchI
  cases h : alistFind cs.query_cache (cacheKey query top_k) with
  | some cached => simp [h]
  | none =>
    by_cases ht : cs.use_tfidf
    · simp [h, ht, alistFind_alistSet_self]
    · simp [h, ht, alistFind_alistSet_self]

/-! Arithmetic helper lemmas for the keyword scorer. -/

/-- A fold that conditionally adds a constant weight equals the start value
plus the sum of the per-item weights. -/
theorem foldl_if_add (g : String → Bool) (w : ℚ) :
    ∀ (l : List String) (s : ℚ),
      l.foldl (fun acc kw => if g kw then acc + w else acc) s
        = s + (l.map fun kw => if g kw then w else 0).sum := by
  intro l
  induction l with
  | nil => intro s; simp
  | cons a t ih =>
    intro s
    by_cases h : g a
    · rw [List.foldl_cons, if_pos h, ih, List.map_cons, List.sum_cons, if_pos h, add_assoc]
    · rw [List.foldl_cons, if_neg h, ih, List.map_cons, List.sum_cons, if_neg h, zero_add]

/-- Summing a pointwise sum splits into two sums. -/
theorem sum_map_add (f g : String → ℚ) :
    ∀ l : List String, (l.map fun x => f x + g x).sum = (l.map f).sum + (l.map g).sum := by
  intro l
  induction l with
  | nil => simp
  | cons a t ih => simp [ih]; ring

/-- Claim C5 counterexample: a keyword occurring twice in the keyword list
contributes its field weights twice, not once.  The element named `config`
(all other fields empty) scores 6 against `["config", "config"]`, while the
claim's "at most once per keyword that appears multiple times in the keyword
set" reading predicts 3 (the score against the deduplicated list). -/
theorem claim5_counterexample :
    scoreElementKeywords eConfig ["config", "config"] = 6
    ∧ scoreElementKeywords eConfig ["config"] = 3 := by
  constructor
  · decide
  · decide

/-- Claim C5 (amended): the lexical score is the sum, over the occurrences of
keywords in the keyword list, of fixed field weights — name 3.0, docstring 2.0
(only when the docstring is present and non-empty), signature 1.5, code 0.5 —
each field contributing its weight at most once per list occurrence of a
keyword (substring presence, not per physical occurrence in the text), but
contributing once more for every repetition of the keyword in the list. -/
theorem claim5_per_occurrence_sum (elem : CodeElement) (kws : List String) :
    scoreElementKeywords elem kws = (kws.map (keywordFieldScore elem)).sum := by
  unfold scoreElementKeywords keywordFieldScore
  cases hd : docstringIf elem with
  | none =>
    simp only [add_zero]
    rw [foldl_if_add, foldl_if_add, foldl_if_add, sum_map_add, sum_map_add]
    ring
  | some d =>
    dsimp only
    rw [foldl_if_add, foldl_if_add, foldl_if_add, foldl_if_add,
      sum_map_add, sum_map_add, sum_map_add]
    ring

/-- Every accumulated boost of `rank_results` is strictly positive. -/
theorem rankBoost_pos (query : String) (elem : CodeElement) : 0 < rankBoost query elem := by
  unfold rankBoost
  refine mul_pos (mul_pos (mul_pos ?_ ?_) ?_) ?_
  · split
    · norm_num
    · split <;> norm_num
  · split
    · split <;> norm_num
    · norm_num
  · split <;> norm_num
  · split <;> norm_num

/-- Claim C2 counterexample: one `rank_results` pass on two results (`bar`
scored 3 with boost 1, `foobar` scored 1.9 with boost 1.5 for the query `foo`)
ranks `bar` first; applying `rank_results` again to that output flips the
order, because the second boost multiplies the scores unevenly. -/
theorem claim2_counterexample :
    (rankResults [resBar, resFoobar] "foo").map (fun r => r.element.name) = ["bar", "foobar"]
    ∧ (rankResults (rankResults [resBar, resFoobar] "foo") "foo").map (fun r => r.element.name)
        = ["foobar", "bar"] := by
  constructor
  · decide
  · decide

/-- Claim C2 (amended): a second `rank_results` pass preserves the relative
order of any two results of the first pass whose elements have equal
accumulated boost factors (in particular ties broken by the stable sort stay
put); with unequal boosts the order can change, as the counterexample shows. -/
theorem claim2_order_preserved (l : List SearchResult) (query : String) (A B : SearchResult)
    (hboost : rankBoost query A.element = rankBoost query B.element)
    (hAB : [A, B] <+ rankResults l query) :
    [{ A with score := A.score * rankBoost query A.element },
     { B with score := B.score * rankBoost query B.element }] <+
      rankResults (rankResults l query) query := by
  have hsorted : (rankResults l query).Pairwise scoreGE := by
    unfold rankResults
    exact List.sorted_insertionSort scoreGE _
  have hge : scoreGE A B := List.pairwise_iff_forall_sublist.mp hsorted hAB
  have hpos : (0 : ℚ) < rankBoost query A.element := rankBoost_pos query A.element
  have hge' : scoreGE { A with score := A.score * rankBoost query A.element }
      { B with score := B.score * rankBoost query B.element } := by
    show B.score * rankBoost query B.element ≤ A.score * rankBoost query A.element
    rw [← hboost]
    exact mul_le_mul_of_nonneg_right hge (le_of_lt hpos)
  have hmap : [{ A with score := A.score * rankBoost query A.element },
      { B with score := B.score * rankBoost query B.element }] <+
      (rankResults l query).map
        (fun r => { r with score := r.score * rankBoost query r.element }) := by
    simpa using hAB.map (fun r => { r with score := r.score * rankBoost query r.element })
  show _ <+ ((rankResults l query).map
      (fun r => { r with score := r.score * rankBoost query r.element })).insertionSort scoreGE
  exact List.sublist_insertionSort (List.pairwise_pair.mpr hge') hmap

/-- Witness for the amended C2 at two equal-boost results under query `zzz`. -/
theorem claim2_witness :
    [{ resBar with score := resBar.score * rankBoost "zzz" resBar.element },
     { resBaz with score := resBaz.score * rankBoost "zzz" resBaz.element }] <+
      rankResults (rankResults [resBar, resBaz] "zzz") "zzz" :=
  claim2_order_preserved [resBar, resBaz] "zzz" resBar resBaz (by decide) (by decide)

/-- The scored-element list is the in-order positive-score elements paired with
their scores. -/
theorem keywordScored_eq (cs : CodeSearch) (kws : List String) :
    keywordScored cs kws
      = (cs.elements.filter fun e => decide (0 < scoreElementKeywords e kws)).map
          fun e => (e, scoreElementKeywords e kws) := by
  unfold keywordScored
  generalize cs.elements = l
  induction l with
  | nil => rfl
  | cons a t ih =>
    by_cases h : 0 < scoreElementKeywords a kws
    · simp [List.filterMap_cons, List.filter_cons, h, ih]
    · simp [List.filterMap_cons, List.filter_cons, h, ih]

/-- Claim C4: on a query with a non-empty extracted keyword list,
`keyword_search` returns only strictly positive scores, sorted descending by
score, at most `top_k` of them; the output is the truncated stable descending
sort of the in-order scored list, and that sort keeps any correctly-ordered
(in particular, equal-score) input pair in its original relative order. -/
theorem claim4_keyword_search (cs : CodeSearch) (query : String) (top_k : Nat)
    (hk : extractKeywords query ≠ []) :
    (∀ r ∈ keywordSearch cs query top_k, 0 < r.score)
    ∧ (keywordSearch cs query top_k).length ≤ top_k
    ∧ (keywordSearch cs query top_k).Pairwise scoreGE
    ∧ keywordSearch cs query top_k
        = (((keywordScored cs (extractKeywords query)).insertionSort pairGE).take top_k).map
            (fun p => { element := p.1, score := p.2, match_type := "keyword",
                        matched_terms := extractKeywords query })
    ∧ (∀ a b : CodeElement × ℚ, [a, b] <+ keywordScored cs (extractKeywords query) →
        pairGE a b → [a, b] <+ (keywordScored cs (extractKeywords query)).insertionSort pairGE) := by
  have hempty : (extractKeywords query).isEmpty = false := by
    cases h : extractKeywords query with
    | nil => exact absurd h hk
    | cons a t => rfl
  have hdef : keywordSearch cs query top_k
      = (((keywordScored cs (extractKeywords query)).insertionSort pairGE).take top_k).map
          (fun p => { element := p.1, score := p.2, match_type := "keyword",
                      matched_terms := extractKeywords query }) := by
    unfold keywordSearch keywordSearchI
    simp only [hempty, Bool.false_eq_true, if_false]
  refine ⟨?_, ?_, ?_, hdef, ?_⟩
  · intro r hr
    rw [hdef] at hr
    obtain ⟨p, hp, rfl⟩ := List.mem_map.mp hr
    have hp' : p ∈ keywordScored cs (extractKeywords query) :=
      (List.mem_insertionSort pairGE).mp (List.mem_of_mem_take hp)
    rw [keywordScored_eq] at hp'
    obtain ⟨e, he, rfl⟩ := List.mem_map.mp hp'
    exact of_decide_eq_true (List.mem_filter.mp he).2
  · rw [hdef, List.length_map]
    exact List.length_take_le top_k _
  · rw [hdef]
    refine List.Pairwise.map _ (fun a b hab => hab) ?_
    exact List.Pairwise.sublist (List.take_sublist top_k _)
      (List.sorted_insertionSort pairGE (keywordScored cs (extractKeywords query)))
  · intro a b hab hge
    exact List.sublist_insertionSort (List.pairwise_pair.mpr hge) hab

/-- Witness for C4 on the one-element index and query `config`. -/
theorem claim4_witness :
    extractKeywords "config" ≠ []
    ∧ 0 < (⟨eConfig, 3, "keyword", ["config"]⟩ : SearchResult).score
    ∧ (keywordSearch csKw "config" 5).length ≤ 5 :=
  ⟨by decide,
   (claim4_keyword_search csKw "config" 5 (by decide)).1
     ⟨eConfig, 3, "keyword", ["config"]⟩ (by decide),
   (claim4_keyword_search csKw "config" 5 (by decide)).2.1⟩

/-- The exact mode of `search_by_name` sorts the per-element exact hits. -/
theorem searchByName_exact_eq (cs : CodeSearch) (n : String) :
    searchByName cs n true
      = ((cs.elements.filter fun e => lowerStr e.name == lowerStr n).map
          (mkExactResult n)).insertionSort scoreGE := by
  have hlist : (cs.elements.filterMap fun elem =>
      if lowerStr elem.name == lowerStr n then some (mkExactResult n elem) else none)
      = (cs.elements.filter fun e => lowerStr e.name == lowerStr n).map (mkExactResult n) := by
    generalize cs.elements = l
    induction l with
    | nil => rfl
    | cons a t ih =>
      rw [List.filterMap_cons, List.filter_cons]
      by_cases h : (lowerStr a.name == lowerStr n) = true
      · rw [if_pos h, if_pos h]
        dsimp only
        rw [List.map_cons, ih]
      · rw [if_neg h, if_neg h]
        dsimp only
        rw [ih]
  show (cs.elements.filterMap fun elem =>
      if lowerStr elem.name == lowerStr n then some (mkExactResult n elem) else none).insertionSort
        scoreGE = _
  rw [hlist]

/-- The substring mode of `search_by_name` sorts the per-element substring
hits. -/
theorem searchByName_sub_eq (cs : CodeSearch) (n : String) :
    searchByName cs n false
      = ((cs.elements.filter fun e => occursIn (lowerStr n) (lowerStr e.name)).map
          (mkNameResult n)).insertionSort scoreGE := by
  have hlist : (cs.elements.filterMap fun elem =>
      if occursIn (lowerStr n) (lowerStr elem.name) then some (mkNameResult n elem) else none)
      = (cs.elements.filter fun e => occursIn (lowerStr n) (lowerStr e.name)).map
          (mkNameResult n) := by
    generalize cs.elements = l
    induction l with
    | nil => rfl
    | cons a t ih =>
      rw [List.filterMap_cons, List.filter_cons]
      by_cases h : occursIn (lowerStr n) (lowerStr a.name) = true
      · rw [if_pos h, if_pos h]
        dsimp only
        rw [List.map_cons, ih]
      · rw [if_neg h, if_neg h]
        dsimp only
        rw [ih]
  show (cs.elements.filterMap fun elem =>
      if occursIn (lowerStr n) (lowerStr elem.name) then some (mkNameResult n elem)
      else none).insertionSort scoreGE = _
  rw [hlist]

/-- Claim C8: `search_by_name` compares lowercased strings; exact mode yields
one result of score 1 and match type `"exact"` per element with an equal
lowercased name, substring mode yields one result of score
`len(query) / len(elem.name)` and match type `"name"` per element whose
lowercased name contains the lowercased query, and both modes are sorted
descending by score. -/
theorem claim8_search_by_name (cs : CodeSearch) (n : String) :
    ((searchByName cs n true).Perm
        ((cs.elements.filter fun e => lowerStr e.name == lowerStr n).map (mkExactResult n)))
    ∧ (∀ r ∈ searchByName cs n true, r.score = 1 ∧ r.match_type = "exact")
    ∧ (searchByName cs n true).Pairwise scoreGE
    ∧ ((searchByName cs n false).Perm
        ((cs.elements.filter fun e => occursIn (lowerStr n) (lowerStr e.name)).map
          (mkNameResult n)))
    ∧ (∀ r ∈ searchByName cs n false,
        r.score = (n.length : ℚ) / (r.element.name.length : ℚ) ∧ r.match_type = "name")
    ∧ (searchByName cs n false).Pairwise scoreGE := by
  refine ⟨?_, ?_, ?_, ?_, ?_, ?_⟩
  · rw [searchByName_exact_eq]
    exact List.perm_insertionSort scoreGE _
  · intro r hr
    rw [searchByName_exact_eq] at hr
    obtain ⟨e, _, rfl⟩ := List.mem_map.mp ((List.mem_insertionSort scoreGE).mp hr)
    exact ⟨rfl, rfl⟩
  · rw [searchByName_exact_eq]
    exact List.sorted_insertionSort scoreGE _
  · rw [searchByName_sub_eq]
    exact List.perm_insertionSort scoreGE _
  · intro r hr
    rw [searchByName_sub_eq] at hr
    obtain ⟨e, _, rfl⟩ := List.mem_map.mp ((List.mem_insertionSort scoreGE).mp hr)
    exact ⟨rfl, rfl⟩
  · rw [searchByName_sub_eq]
    exact List.sorted_insertionSort scoreGE _

/-- Witness for C8: exact mode at query `Config` (case-insensitive hit on the
element named `config`) and substring mode at query `con`. -/
theorem claim8_witness :
    ((mkExactResult "Config" eConfig).score = 1
      ∧ (mkExactResult "Config" eConfig).match_type = "exact")
    ∧ ((mkNameResult "con" eConfig).score
          = (("con".length : ℚ) / ((mkNameResult "con" eConfig).element.name.length : ℚ))
      ∧ (mkNameResult "con" eConfig).match_type = "name") :=
  ⟨(claim8_search_by_name csKw "Config").2.1 (mkExactResult "Config" eConfig) (by decide),
   (claim8_search_by_name csKw "con").2.2.2.2.1 (mkNameResult "con" eConfig) (by decide)⟩

/-- Claim C9 counterexample: `keyword_search` records the full extracted
keyword list as `matched_terms`, including terms contributing nothing.  On the
index containing only the element named `config` (docstring absent, empty
signature and code), the query `config banana` yields one result whose
`matched_terms` contains `banana`, although `banana` occurs in none of the
element's fields. -/
theorem claim9_counterexample :
    (keywordSearch csKw "config banana" 5).map (fun r => r.matched_terms)
        = [["config", "banana"]]
    ∧ occursIn "banana" (lowerStr eConfig.name) = false
    ∧ eConfig.docstring = none
    ∧ occursIn "banana" (lowerStr eConfig.signature) = false
    ∧ occursIn "banana" (lowerStr eConfig.code) = false := by
  refine ⟨by decide, by decide, rfl, by decide, by decide⟩

/-- Claim C9 (amended): every `keyword_search` result carries the full
extracted keyword list as `matched_terms` — duplicates and non-contributing
terms included — while `_extract_matched_terms` (the helper used by the
semantic path) returns only extracted keywords that do occur in the given
text. -/
theorem claim9_matched_terms :
    (∀ (cs : CodeSearch) (query : String) (top_k : Nat) (r : SearchResult),
        r ∈ keywordSearch cs query top_k → r.matched_terms = extractKeywords query)
    ∧ (∀ (query text t : String),
        t ∈ extractMatchedTerms query text →
          t ∈ extractKeywords query ∧ occursIn t (lowerStr text) = true) := by
  constructor
  · intro cs query top_k r hr
    unfold keywordSearch keywordSearchI at hr
    cases hb : (extractKeywords query).isEmpty with
    | true => simp [hb] at hr
    | false =>
      simp only [hb, Bool.false_eq_true, if_false] at hr
      obtain ⟨p, _, rfl⟩ := List.mem_map.mp hr
      rfl
  · intro query text t ht
    unfold extractMatchedTerms at ht
    exact ⟨(List.mem_filter.mp ht).1, (List.mem_filter.mp ht).2⟩

/-- Witness for the amended C9: the `config banana` result carries both
keywords, and `_extract_matched_terms` keeps a keyword present in the text. -/
theorem claim9_witness :
    (⟨eConfig, 3, "keyword", ["config", "banana"]⟩ : SearchResult).matched_terms
        = extractKeywords "config banana"
    ∧ ("config" ∈ extractKeywords "config here"
        ∧ occursIn "config" (lowerStr "has config") = true) :=
  ⟨claim9_matched_terms.1 csKw "config banana" 5 ⟨eConfig, 3, "keyword", ["config", "banana"]⟩
     (by decide),
   claim9_matched_terms.2 "config here" "has config" "config" (by decide)⟩

/-! Helper lemmas for the analysis of the argsort-based semantic search. -/

/-- In a duplicate-free list the pair order is unambiguous: a pair cannot be a
sublist in both orders unless both components are equal. -/
theorem pair_sublist_asymm {α : Type} {l : List α} (hnd : l.Nodup) {a b : α}
    (h1 : [a, b] <+ l) (h2 : [b, a] <+ l) : a = b := by
  induction l with
  | nil => simp at h1
  | cons x t ih =>
    rw [List.nodup_cons] at hnd
    cases h1 with
    | cons _ h1t =>
      cases h2 with
      | cons _ h2t => exact ih hnd.2 h1t h2t
      | cons₂ _ h2t =>
        exact absurd (h1t.subset (by simp)) hnd.1
    | cons₂ _ h1t =>
      cases h2 with
      | cons _ h2t =>
        exact absurd (h2t.subset (by simp)) hnd.1
      | cons₂ _ h2t => rfl

/-- Any strictly increasing pair below `n` is a pair sublist of `range n`. -/
theorem pair_sublist_range {a b n : Nat} (hab : a < b) (hbn : b < n) :
    [a, b] <+ List.range n := by
  induction n with
  | zero => omega
  | succ m ih =>
    rw [List.range_succ]
    rcases Nat.lt_succ_iff_lt_or_eq.mp hbn with h | h
    · exact (ih h).trans (List.sublist_append_left _ _)
    · subst h
      exact List.Sublist.append (List.singleton_sublist.mpr (List.mem_range.mpr hab))
        (List.Sublist.refl [b])

/-- The stable argsort is a permutation of the index range. -/
theorem argsortAsc_perm (v : List ℚ) : argsortAsc v ~ List.range v.length :=
  List.perm_insertionSort _ _

/-- The stable argsort has no duplicate indices. -/
theorem argsortAsc_nodup (v : List ℚ) : (argsortAsc v).Nodup :=
  ((argsortAsc_perm v).nodup_iff).mpr (List.nodup_range _)

/-- Membership in the stable argsort is exactly the index range. -/
theorem argsortAsc_mem {v : List ℚ} {i : Nat} : i ∈ argsortAsc v ↔ i < v.length := by
  rw [(argsortAsc_perm v).mem_iff, List.mem_range]

/-- The stable ascending argsort is sorted by similarity with ties in
ascending index order. -/
theorem argsortAsc_pairwise (v : List ℚ) :
    (argsortAsc v).Pairwise
      (fun i j => v.getD i 0 < v.getD j 0 ∨ (v.getD i 0 = v.getD j 0 ∧ i < j)) := by
  rw [List.pairwise_iff_forall_sublist]
  intro i j hsub
  have hle : simsLE v i j :=
    List.pairwise_iff_forall_sublist.mp
      (List.sorted_insertionSort (simsLE v) (List.range v.length)) hsub
  rcases lt_or_eq_of_le hle with hlt | heq
  · exact Or.inl hlt
  · refine Or.inr ⟨heq, ?_⟩
    have hne : i ≠ j := by
      intro h
      subst h
      have : ([i, i] : List Nat).Pairwise (· ≠ ·) :=
        List.Pairwise.sublist hsub (argsortAsc_nodup v)
      exact (List.pairwise_pair.mp this) rfl
    by_contra hij
    push_neg at hij
    have hji : j < i := lt_of_le_of_ne hij fun h => hne h.symm
    have hin : i < v.length := argsortAsc_mem.mp (hsub.subset (by simp))
    have hsub2 : [j, i] <+ argsortAsc v :=
      List.sublist_insertionSort (List.pairwise_pair.mpr (le_of_eq heq.symm))
        (pair_sublist_range hji hin)
    exact hne (pair_sublist_asymm (argsortAsc_nodup v) hsub hsub2)

/-- The reversed argsort is sorted descending by similarity with ties in
descending index order. -/
theorem argsortDesc_pairwise (v : List ℚ) :
    (argsortDesc v).Pairwise
      (fun i j => v.getD j 0 < v.getD i 0 ∨ (v.getD i 0 = v.getD j 0 ∧ j < i)) := by
  unfold argsortDesc
  rw [List.pairwise_reverse]
  refine (argsortAsc_pairwise v).imp ?_
  intro i j h
  rcases h with h | ⟨he, hij⟩
  · exact Or.inl h
  · exact Or.inr ⟨he.symm, hij⟩

/-- Membership in the reversed argsort is exactly the index range. -/
theorem argsortDesc_mem {v : List ℚ} {i : Nat} : i ∈ argsortDesc v ↔ i < v.length := by
  unfold argsortDesc
  rw [List.mem_reverse]
  exact argsortAsc_mem

/-- The reversed argsort enumerates every index once. -/
theorem argsortDesc_length (v : List ℚ) : (argsortDesc v).length = v.length := by
  unfold argsortDesc
  rw [List.length_reverse]
  exact (argsortAsc_perm v).length_eq.trans (List.length_range _)

/-- The reversed argsort has no duplicate indices. -/
theorem argsortDesc_nodup (v : List ℚ) : (argsortDesc v).Nodup := by
  unfold argsortDesc
  rw [List.nodup_reverse]
  exact argsortAsc_nodup v

/-- A filterMap with an if-some-else-none body is a filter followed by a map. -/
theorem filterMap_if {α β : Type} (p : α → Prop) [DecidablePred p] (f : α → β) :
    ∀ l : List α, (l.filterMap fun a => if p a then some (f a) else none)
      = (l.filter fun a => decide (p a)).map f := by
  intro l
  induction l with
  | nil => rfl
  | cons a t ih =>
    by_cases hp : p a
    · simp [List.filterMap_cons, List.filter_cons, hp, ih]
    · simp [List.filterMap_cons, List.filter_cons, hp, ih]

/-- With the backend available, `semantic_search` maps the selected indices to
semantic results. -/
theorem semanticSearch_eq (cs : CodeSearch) (query : String) (top_k : Nat)
    (h : cs.use_tfidf = true) :
    semanticSearch cs query top_k
      = (semanticSel cs query top_k).map (mkSemanticResult cs query) := by
  unfold semanticSearch semanticSel
  rw [h]
  simp only [if_true]
  exact filterMap_if _ _ _

/-- Claim C3 counterexample: with equal positive similarities for documents 0
and 1, `semantic_search` lists document 1 (`b`) before document 0 (`a`): the
reversed stable argsort breaks ties by descending index, so the last-indexed
element wins — not the first-indexed one as claimed. -/
theorem claim3_counterexample :
    (csTie.sims "q").getD 0 0 = (csTie.sims "q").getD 1 0
    ∧ 0 < (csTie.sims "q").getD 0 0
    ∧ (semanticSearch csTie "q" 2).map (fun r => r.element.name) = ["b", "a"] := by
  refine ⟨by decide, by decide, by decide⟩

/-- Claim C3 (amended): with the backend available and the similarity vector
aligned with the elements, `semantic_search` returns exactly the strictly
positive entries among the `top_k` highest similarities, as semantic results in
descending similarity order — but equal similarities are ordered by descending
original index (the last-indexed element wins ties, since the ascending argsort
is reversed).  The selection is complete: any positive-similarity document left
out implies the selection is already full with `top_k` documents of
similarities at least as large. -/
theorem claim3_semantic_search (cs : CodeSearch) (query : String) (top_k : Nat)
    (h : cs.use_tfidf = true)
    (hlen : (cs.sims query).length = cs.elements.length) :
    semanticSearch cs query top_k
        = (semanticSel cs query top_k).map (mkSemanticResult cs query)
    ∧ (semanticSearch cs query top_k).length ≤ top_k
    ∧ (∀ r ∈ semanticSearch cs query top_k, 0 < r.score ∧ r.match_type = "semantic")
    ∧ (semanticSearch cs query top_k).Pairwise scoreGE
    ∧ (semanticSel cs query top_k).Nodup
    ∧ (∀ i ∈ semanticSel cs query top_k,
        i < cs.elements.length ∧ 0 < (cs.sims query).getD i 0)
    ∧ (semanticSel cs query top_k).Pairwise
        (fun i j => (cs.sims query).getD j 0 < (cs.sims query).getD i 0
          ∨ ((cs.sims query).getD i 0 = (cs.sims query).getD j 0 ∧ j < i))
    ∧ (∀ j, j < (cs.sims query).length → j ∉ semanticSel cs query top_k →
        0 < (cs.sims query).getD j 0 →
          (semanticSel cs query top_k).length = top_k
          ∧ ∀ i ∈ semanticSel cs query top_k,
              (cs.sims query).getD j 0 ≤ (cs.sims query).getD i 0) := by
  have heq := semanticSearch_eq cs query top_k h
  have hselsub : semanticSel cs query top_k <+ argsortDesc (cs.sims query) := by
    unfold semanticSel
    exact (List.filter_sublist _).trans (List.take_sublist _ _)
  refine ⟨heq, ?_, ?_, ?_, ?_, ?_, ?_, ?_⟩
  · rw [heq, List.length_map]
    refine le_trans (List.length_filter_le _ _) ?_
    rw [List.length_take]
    exact Nat.min_le_left _ _
  · intro r hr
    rw [heq] at hr
    obtain ⟨i, hi, rfl⟩ := List.mem_map.mp hr
    exact ⟨of_decide_eq_true (List.mem_filter.mp hi).2, rfl⟩
  · rw [heq]
    refine List.Pairwise.map _ ?_
      (List.Pairwise.sublist hselsub (argsortDesc_pairwise (cs.sims query)))
    intro i j hij
    rcases hij with hlt | ⟨he, _⟩
    · exact le_of_lt hlt
    · exact le_of_eq he.symm
  · exact List.Nodup.sublist hselsub (argsortDesc_nodup (cs.sims query))
  · intro i hi
    constructor
    · rw [← hlen]
      exact argsortDesc_mem.mp (hselsub.subset hi)
    · exact of_decide_eq_true (List.mem_filter.mp hi).2
  · exact List.Pairwise.sublist hselsub (argsortDesc_pairwise (cs.sims query))
  · intro j hj hns hpos
    have hjdesc : j ∈ argsortDesc (cs.sims query) := argsortDesc_mem.mpr hj
    have hjsplit : j ∈ (argsortDesc (cs.sims query)).take top_k
        ∨ j ∈ (argsortDesc (cs.sims query)).drop top_k := by
      rw [← List.mem_append, List.take_append_drop]
      exact hjdesc
    cases hjsplit with
    | inl hin =>
      refine absurd ?_ hns
      unfold semanticSel
      exact List.mem_filter.mpr ⟨hin, decide_eq_true hpos⟩
    | inr hdrop =>
      have hP : ((argsortDesc (cs.sims query)).take top_k
          ++ (argsortDesc (cs.sims query)).drop top_k).Pairwise
            (fun i j => (cs.sims query).getD j 0 < (cs.sims query).getD i 0
              ∨ ((cs.sims query).getD i 0 = (cs.sims query).getD j 0 ∧ j < i)) := by
        rw [List.take_append_drop]
        exact argsortDesc_pairwise (cs.sims query)
      have hcross := (List.pairwise_append.mp hP).2.2
      have hall : ∀ i ∈ (argsortDesc (cs.sims query)).take top_k,
          (cs.sims query).getD j 0 ≤ (cs.sims query).getD i 0 := by
        intro i hi
        rcases hcross i hi j hdrop with hlt | ⟨he, _⟩
        · exact le_of_lt hlt
        · exact le_of_eq he.symm
      refine ⟨?_, fun i hi => hall i (List.mem_of_mem_filter hi)⟩
      have hfe : semanticSel cs query top_k = (argsortDesc (cs.sims query)).take top_k := by
        unfold semanticSel
        refine List.filter_eq_self.mpr ?_
        intro i hi
        exact decide_eq_true (lt_of_lt_of_le hpos (hall i hi))
      rw [hfe, List.length_take]
      have hlt : top_k < (argsortDesc (cs.sims query)).length := by
        by_contra hk
        push_neg at hk
        rw [List.drop_eq_nil_of_le hk] at hdrop
        simp at hdrop
      exact Nat.min_eq_left (le_of_lt hlt)

/-- Witness for the amended C3 at a two-document searcher with distinct
positive similarities and `top_k = 1`. -/
theorem claim3_witness :
    semanticSearch csSem "q" 1 = (semanticSel csSem "q" 1).map (mkSemanticResult csSem "q")
    ∧ (semanticSearch csSem "q" 1).length ≤ 1 :=
  ⟨(claim3_semantic_search csSem "q" 1 rfl rfl).1,
   (claim3_semantic_search csSem "q" 1 rfl rfl).2.1⟩

end DspyRag
